import Mathlib

/-!
Verification of the signal-graph synthesis engine of the leszek-bin
repository (src/src/signals.rs and src/src/main.rs).

The Rust code is shallowly embedded over exact rationals: every f32 value
is modelled as a rational number, so f32 arithmetic is idealised as exact
field arithmetic.  The trait object Box<dyn Signal> with its interior
mutable state is modelled by the inductive type Sig that carries each
node's mutable state in its constructor arguments; the method
sample(&mut self, t) -> Ch32 becomes a pure function returning the output
amplitude together with the updated node.  The f32 cosine function is an
abstract parameter (named cs below): no claim depends on its values.
The fon crate's Ch32 channel type is a transparent wrapper around f32
(neither Ch32::from nor the arithmetic used here clamps), so amplitudes
are plain rationals.

Rust's remainder on f32 (x % y = x - y * trunc(x / y), sign of the
dividend) is modelled by fmod below.  IEEE division by zero never faults:
x % 0.0 is NaN, and every comparison with NaN is false.  The two places
the source can take a remainder by zero (StepSignal::sample with
total_time == 0, Every::sample with period == 0) therefore fall through
every comparison and return 0.0; since the rationals have no NaN, the
model writes those two cases out explicitly as a zero result.
-/

/-- Model constants from src/src/signals.rs lines 5-7. -/
def SAMPLE_RATE : ℚ := 44100

def SAMPLE_PERIOD : ℚ := 1 / SAMPLE_RATE

def TAU : ℚ := 6.2831855

/-- Truncation toward zero, as an integer. -/
def rtrunc (q : ℚ) : ℤ := if 0 ≤ q then ⌊q⌋ else ⌈q⌉

/-- Rust's remainder operator on floats: x % y = x - y * trunc(x / y).
The result has the sign of the dividend x. -/
def fmod (x y : ℚ) : ℚ := x - y * rtrunc (x / y)

/-- The five envelope states of enum AdsrState (signals.rs lines 106-112). -/
inductive AdsrState where
  | Idle
  | Attack
  | Decay
  | Sustain
  | Release
deriving DecidableEq

/-- The scalar fields of struct Adsr (signals.rs lines 114-126): everything
except the two boxed sub-signals, which live in the Sig constructor. -/
structure AdsrCore where
  state : AdsrState
  peak_level : ℚ
  attack : ℚ
  decay : ℚ
  sustain_level : ℚ
  release : ℚ
  beg_value : ℚ
  value : ℚ
  gate_last : Bool
deriving DecidableEq

/-- The ramp-step denominator used by Adsr::sample in all three ramp
phases: (duration * SAMPLE_RATE).max(1.0). -/
def adsrDen (d : ℚ) : ℚ := max (d * SAMPLE_RATE) 1

/-- One call of Adsr::sample (signals.rs lines 149-201) restricted to the
scalar state: gate edge detection followed by the state-machine step.
The gate argument is the boolean gate.sample(t) > 0.0. -/
def adsrUpdate (c0 : AdsrCore) (gate : Bool) : AdsrCore :=
  let c1 :=
    match c0.gate_last, gate with
    | false, true => { c0 with beg_value := c0.value, state := .Attack }
    | true, false => { c0 with beg_value := c0.value, state := .Release }
    | _, _ => c0
  let c := { c1 with gate_last := gate }
  match c.state with
  | .Idle => { c with beg_value := 0 }
  | .Attack =>
      let step := c.peak_level / adsrDen c.attack
      let v := c.value + step
      if v ≥ c.peak_level then { c with value := c.peak_level, state := .Decay }
      else { c with value := v }
  | .Decay =>
      let step := (c.peak_level - c.sustain_level) / adsrDen c.decay
      let v := c.value - step
      if v ≤ c.sustain_level then { c with value := c.sustain_level, state := .Sustain }
      else { c with value := v }
  | .Sustain => { c with value := c.sustain_level }
  | .Release =>
      let step := c.beg_value / adsrDen c.release
      let v := c.value - step
      if v ≤ 0 then { c with value := 0, state := .Idle }
      else { c with value := v }

/-- The scalar state produced by Adsr::new (signals.rs lines 130-146). -/
def adsrNew : AdsrCore :=
  { state := .Idle, peak_level := 1, attack := 0.01, decay := 0.3,
    sustain_level := 0.5, release := 0.01, beg_value := 0, value := 0,
    gate_last := false }

mutual
/-- A signal node together with its full mutable state.  Constructors are
named after the Rust structs implementing the Signal trait. -/
inductive Sig where
  | Const (value : ℚ)
  | Sine (freq : Sig) (state : ℚ)
  | Gain (signal : Sig) (gain : ℚ)
  | Sum (a : Sig) (b : Sig)
  | Adsr (core : AdsrCore) (gate : Sig) (input : Sig)
  | Sample (gate : Sig) (samples : List ℚ) (index : ℕ)
  | Every (period : ℚ) (duration : ℚ)
  | StepSignal (steps : Steps) (total_time : ℚ)
/-- The Vec<(Box<dyn Signal>, f32)> field of StepSignal, as a list of
(sub-signal, duration) pairs. -/
inductive Steps where
  | nil
  | cons (signal : Sig) (duration : ℚ) (rest : Steps)
end

/-- The sum of the durations, as computed by StepSignal::new
(signals.rs lines 285-288). -/
def Steps.totalTime : Steps → ℚ
  | .nil => 0
  | .cons _ duration rest => duration + rest.totalTime

/-- Build a Steps value from a list of (sub-signal, duration) pairs. -/
def Steps.ofList : List (Sig × ℚ) → Steps
  | [] => .nil
  | (s, d) :: rest => .cons s d (Steps.ofList rest)

/-- StepSignal::new: store the steps and the sum of their durations. -/
def StepSignal.new (l : List (Sig × ℚ)) : Sig :=
  .StepSignal (Steps.ofList l) (Steps.ofList l).totalTime

mutual
/-- One call of Signal::sample: returns the output amplitude and the node
with its mutable state advanced.  Each branch transcribes the
corresponding impl Signal in signals.rs; cs is the f32 cosine function.
In the Every and StepSignal branches a remainder by zero is NaN in the
source and fails every following comparison, which the model writes as
the explicit zero-divisor case. -/
def Sig.sample (cs : ℚ → ℚ) : Sig → ℚ → ℚ × Sig
  | .Const v, _ => (v, .Const v)
  | .Sine freq state, t =>
      let out := cs state
      let fr := Sig.sample cs freq t
      (out, .Sine fr.2 (fmod (state + TAU * SAMPLE_PERIOD * fr.1) TAU))
  | .Gain signal g, t =>
      let s := Sig.sample cs signal t
      (s.1 * g, .Gain s.2 g)
  | .Sum a b, t =>
      let oa := Sig.sample cs a t
      let ob := Sig.sample cs b t
      (oa.1 + ob.1, .Sum oa.2 ob.2)
  | .Adsr core gate input, t =>
      let g := Sig.sample cs gate t
      let c := adsrUpdate core (decide (g.1 > 0))
      let inp := Sig.sample cs input t
      (c.value * inp.1, .Adsr c g.2 inp.2)
  | .Sample gate samples index, t =>
      let g := Sig.sample cs gate t
      if g.1 ≤ 0 then (0, .Sample g.2 samples 0)
      else if index < samples.length then
        (samples.getD index 0, .Sample g.2 samples (index + 1))
      else (0, .Sample g.2 samples index)
  | .Every period duration, t =>
      (if period = 0 then 0 else if fmod t period < duration then 1 else 0,
       .Every period duration)
  | .StepSignal steps total_time, t =>
      if total_time = 0 then (0, .StepSignal steps total_time)
      else
        let t' := fmod t total_time
        let r := Steps.sampleAt cs steps t' 0
        (r.1, .StepSignal r.2 total_time)
/-- The segment-selection loop inside StepSignal::sample (signals.rs
lines 293-301): acc is the accumulated_time variable; the first segment
with t < acc + duration is sampled at the local time t - acc, and a
fall-through returns 0.0. -/
def Steps.sampleAt (cs : ℚ → ℚ) : Steps → ℚ → ℚ → ℚ × Steps
  | .nil, _, _ => (0, .nil)
  | .cons signal duration rest, t, acc =>
      if t < acc + duration then
        let s := Sig.sample cs signal (t - acc)
        (s.1, .cons s.2 duration rest)
      else
        let r := Steps.sampleAt cs rest t (acc + duration)
        (r.1, .cons signal duration r.2)
end

mutual
/-- Signal::clone_box for every node kind.  Note what the source resets:
Sine::clone_box calls Sine::new (phase accumulator back to 0.0),
Adsr::clone_box calls Adsr::new (whole envelope state reset),
Sample::clone_box rebuilds with index: 0, and StepSignal::clone_box calls
StepSignal::new on recursively cloned steps. -/
def Sig.clone_box : Sig → Sig
  | .Const v => .Const v
  | .Sine freq _ => .Sine freq.clone_box 0
  | .Gain signal g => .Gain signal.clone_box g
  | .Sum a b => .Sum a.clone_box b.clone_box
  | .Adsr _ gate input => .Adsr adsrNew gate.clone_box input.clone_box
  | .Sample gate samples _ => .Sample gate.clone_box samples 0
  | .Every period duration => .Every period duration
  | .StepSignal steps _ =>
      let c := steps.clone_box
      .StepSignal c c.totalTime
/-- Element-wise clone of the step list, as in StepSignal::clone_box. -/
def Steps.clone_box : Steps → Steps
  | .nil => .nil
  | .cons signal duration rest => .cons signal.clone_box duration rest.clone_box
end

/-- The harmonic-volume table HARMONICS of src/src/main.rs lines 6-8. -/
def HARMONICS : List ℚ :=
  [0.700, 0.243, 0.229, 0.095, 0.139, 0.087, 0.288, 0.199, 0.124, 0.090]

/-- play_note (main.rs lines 160-173): fold the enumerated harmonic table
into a sum of gain-scaled sine oscillators at integer multiples of the
base frequency. -/
def play_note (base : ℚ) (harmonics : List ℚ) : Sig :=
  harmonics.enum.foldl
    (fun acc iv =>
      .Sum acc (.Gain (.Sine (.Const (base * ((iv.1 : ℚ) + 1))) 0) iv.2))
    (.Const 0)

/-- generate_melody (main.rs lines 219-247): build the frequency and gate
step sequences from a note list and a tempo.  The Rust push loop over
notes is expressed with map (one frequency segment per note) and a
two-element flattened map (two gate segments per note). -/
def generate_melody (notes : List (ℚ × ℚ)) (bpm : ℕ) : Sig × Sig :=
  let multiplier : ℚ := 60 / (bpm : ℚ)
  let silence_period : ℚ := 0.02
  let freqs := notes.map (fun fd => (fd.1, fd.2 * multiplier))
  let gates := notes.flatMap
    (fun fd => [((1 : ℚ), (fd.2 - silence_period) * multiplier),
                ((0 : ℚ), silence_period * multiplier)])
  let freq_signal := StepSignal.new
    (freqs.map (fun fd => (play_note fd.1 HARMONICS, fd.2)))
  let gate_signal := StepSignal.new
    (gates.map (fun gd => ((Sig.Const gd.1 : Sig), gd.2)))
  (freq_signal, gate_signal)

/-- Drive a node through one sample call per element of ts, keeping only
the evolving state. -/
def sampleN (cs : ℚ → ℚ) (s : Sig) (ts : List ℚ) : Sig :=
  ts.foldl (fun s' t => (Sig.sample cs s' t).2) s

/-- Iterate adsrUpdate with a constant gate boolean. -/
def adsrIter (c : AdsrCore) (g : Bool) : ℕ → AdsrCore
  | 0 => c
  | n + 1 => adsrUpdate (adsrIter c g n) g

/-- Read the envelope value out of an Adsr node (0 for any other node). -/
def Sig.adsrValue : Sig → ℚ
  | .Adsr c _ _ => c.value
  | _ => 0

/-- Read the envelope state out of an Adsr node. -/
def Sig.adsrStateOf : Sig → Option AdsrState
  | .Adsr c _ _ => some c.state
  | _ => none

/-- Read the phase accumulator out of a Sine node (0 for any other node). -/
def Sig.sineStateOf : Sig → ℚ
  | .Sine _ st => st
  | _ => 0

/-- The list of segment durations of a step list. -/
def Steps.durs : Steps → List ℚ
  | .nil => []
  | .cons _ duration rest => duration :: rest.durs

/-- The list of segment sub-signals of a step list. -/
def Steps.sigs : Steps → List Sig
  | .nil => []
  | .cons signal _ rest => signal :: rest.sigs

/-- The number of segments. -/
def Steps.count (s : Steps) : ℕ := s.durs.length

/-- The i-th (sub-signal, duration) pair, if any. -/
def Steps.get? : Steps → ℕ → Option (Sig × ℚ)
  | .nil, _ => none
  | .cons signal duration _, 0 => some (signal, duration)
  | .cons _ _ rest, n + 1 => rest.get? n

/-- Cumulative duration of the first n segments. -/
def Steps.cum (s : Steps) (n : ℕ) : ℚ := (s.durs.take n).sum

/-- The value held by a Const node (0 for any other node). -/
def Sig.constVal : Sig → ℚ
  | .Const v => v
  | _ => 0

/-- The (constant value, duration) pairs of a step list, used to read a
gate step-sequence back off the graph. -/
def Steps.segs : Steps → List (ℚ × ℚ)
  | .nil => []
  | .cons signal duration rest => (signal.constVal, duration) :: rest.segs

/-- Segment durations of a StepSignal node. -/
def Sig.stepDurs : Sig → List ℚ
  | .StepSignal steps _ => steps.durs
  | _ => []

/-- Segment sub-signals of a StepSignal node. -/
def Sig.stepSigs : Sig → List Sig
  | .StepSignal steps _ => steps.sigs
  | _ => []

/-- The (constant value, duration) segments of a StepSignal node. -/
def Sig.stepSegs : Sig → List (ℚ × ℚ)
  | .StepSignal steps _ => steps.segs
  | _ => []

/-- The stored total_time field of a StepSignal node. -/
def Sig.stepTotal : Sig → ℚ
  | .StepSignal _ total => total
  | _ => 0

/-- All segment durations are nonnegative. -/
def Steps.nonnegDurs (s : Steps) : Prop := ∀ d ∈ s.durs, 0 ≤ d

/-- The envelope core reached after the attack phase ramp has been running
with the gate held high: state Attack, Adsr::new configuration, ramp
value v. -/
def attackCore (v : ℚ) : AdsrCore :=
  { state := .Attack, peak_level := 1, attack := 0.01, decay := 0.3,
    sustain_level := 0.5, release := 0.01, beg_value := 0, value := v,
    gate_last := true }

/-- The envelope core during the decay ramp with the gate held high. -/
def decayCore (v : ℚ) : AdsrCore :=
  { state := .Decay, peak_level := 1, attack := 0.01, decay := 0.3,
    sustain_level := 0.5, release := 0.01, beg_value := 0, value := v,
    gate_last := true }

/-- The envelope core resting in Sustain with the gate held high. -/
def sustainCore : AdsrCore :=
  { state := .Sustain, peak_level := 1, attack := 0.01, decay := 0.3,
    sustain_level := 0.5, release := 0.01, beg_value := 0, value := 1/2,
    gate_last := true }

/-- The range invariant of an envelope core: the running value stays inside
[0, peak_level], the recorded phase-start value is nonnegative, and the
configured levels are ordered 0 ≤ sustain_level ≤ peak_level. -/
def AdsrInv (c : AdsrCore) : Prop :=
  0 ≤ c.value ∧ c.value ≤ c.peak_level ∧ 0 ≤ c.beg_value ∧
    0 ≤ c.sustain_level ∧ c.sustain_level ≤ c.peak_level

theorem fmod_eq_floor (x y : ℚ) (hy : y ≠ 0) (hq : 0 ≤ x / y) :
    fmod x y = y * Int.fract (x / y) := by
  unfold fmod rtrunc
  rw [if_pos hq, Int.fract, mul_sub, mul_div_cancel₀ _ hy]

theorem fmod_eq_ceil (x y : ℚ) (hy : y ≠ 0) (hq : ¬ 0 ≤ x / y) :
    fmod x y = y * (x / y - ⌈x / y⌉) := by
  unfold fmod rtrunc
  rw [if_neg hq, mul_sub, mul_div_cancel₀ _ hy]

theorem fmod_nonneg (x y : ℚ) (hx : 0 ≤ x) (hy : 0 < y) : 0 ≤ fmod x y := by
  rw [fmod_eq_floor x y hy.ne' (div_nonneg hx hy.le)]
  exact mul_nonneg hy.le (Int.fract_nonneg _)

theorem fmod_lt (x y : ℚ) (hx : 0 ≤ x) (hy : 0 < y) : fmod x y < y := by
  rw [fmod_eq_floor x y hy.ne' (div_nonneg hx hy.le)]
  calc y * Int.fract (x / y) < y * 1 :=
        mul_lt_mul_of_pos_left (Int.fract_lt_one _) hy
    _ = y := mul_one y

theorem fmod_gt_neg (x y : ℚ) (hy : 0 < y) : -y < fmod x y := by
  by_cases hq : 0 ≤ x / y
  · rw [fmod_eq_floor x y hy.ne' hq]
    have h0 : 0 ≤ y * Int.fract (x / y) := mul_nonneg hy.le (Int.fract_nonneg _)
    linarith
  · rw [fmod_eq_ceil x y hy.ne' hq]
    have h1 : x / y - ⌈x / y⌉ > -1 := by
      have := Int.ceil_lt_add_one (x / y)
      linarith
    have := mul_lt_mul_of_pos_left h1 hy
    linarith

theorem fmod_lt_of_pos (x y : ℚ) (hy : 0 < y) : fmod x y < y := by
  by_cases hq : 0 ≤ x / y
  · have hx : 0 ≤ x := by
      by_contra hneg
      push_neg at hneg
      have : x / y < 0 := div_neg_of_neg_of_pos hneg hy
      linarith
    exact fmod_lt x y hx hy
  · rw [fmod_eq_ceil x y hy.ne' hq]
    have h1 : x / y - ⌈x / y⌉ ≤ 0 := by
      have := Int.le_ceil (x / y)
      linarith
    have : y * (x / y - ⌈x / y⌉) ≤ 0 := mul_nonpos_of_nonneg_of_nonpos hy.le h1
    linarith

theorem fmod_add_nat_mul (t y : ℚ) (k : ℕ) (ht : 0 ≤ t) (hy : 0 < y) :
    fmod (t + k * y) y = fmod t y := by
  have h1 : (t + k * y) / y = t / y + k := by
    field_simp
  have hq : 0 ≤ t / y := div_nonneg ht hy.le
  have hq2 : 0 ≤ (t + k * y) / y := by
    rw [h1]
    positivity
  unfold fmod rtrunc
  rw [if_pos hq, if_pos hq2, h1, Int.floor_add_nat]
  push_cast
  ring

theorem Steps.ofList_durs (l : List (Sig × ℚ)) :
    (Steps.ofList l).durs = l.map Prod.snd := by
  induction l with
  | nil => rfl
  | cons sd rest ih =>
      obtain ⟨s, d⟩ := sd
      simp [Steps.ofList, Steps.durs, ih]

theorem Steps.ofList_sigs (l : List (Sig × ℚ)) :
    (Steps.ofList l).sigs = l.map Prod.fst := by
  induction l with
  | nil => rfl
  | cons sd rest ih =>
      obtain ⟨s, d⟩ := sd
      simp [Steps.ofList, Steps.sigs, ih]

theorem Steps.ofList_segs (l : List (Sig × ℚ)) :
    (Steps.ofList l).segs = l.map (fun sd => (sd.1.constVal, sd.2)) := by
  induction l with
  | nil => rfl
  | cons sd rest ih =>
      obtain ⟨s, d⟩ := sd
      simp [Steps.ofList, Steps.segs, ih]

theorem Steps.totalTime_eq_durs_sum : (s : Steps) → s.totalTime = s.durs.sum
  | .nil => rfl
  | .cons signal duration rest => by
      simp [Steps.totalTime, Steps.durs, Steps.totalTime_eq_durs_sum rest]

theorem Steps.clone_box_durs : (s : Steps) → s.clone_box.durs = s.durs
  | .nil => rfl
  | .cons signal duration rest => by
      simp [Steps.clone_box, Steps.durs, Steps.clone_box_durs rest]

theorem Steps.clone_box_totalTime (s : Steps) :
    s.clone_box.totalTime = s.totalTime := by
  rw [Steps.totalTime_eq_durs_sum, Steps.totalTime_eq_durs_sum, Steps.clone_box_durs]

theorem adsrIter_succ_front (c : AdsrCore) (g : Bool) (n : ℕ) :
    adsrIter c g (n + 1) = adsrIter (adsrUpdate c g) g n := by
  induction n with
  | zero => rfl
  | succ m ih => rw [adsrIter, ih, adsrIter]

theorem Steps.cum_zero (s : Steps) : s.cum 0 = 0 := rfl

theorem Steps.cum_cons_succ (sg : Sig) (d : ℚ) (rest : Steps) (n : ℕ) :
    (Steps.cons sg d rest).cum (n + 1) = d + rest.cum n := by
  simp [Steps.cum, Steps.durs]

theorem Steps.sampleAt_sel (cs : ℚ → ℚ) :
    (steps : Steps) → (i : ℕ) → (t acc : ℚ) → (sg : Sig) → (dur : ℚ) →
    steps.get? i = some (sg, dur) →
    (∀ j, j < i → ¬ (t < acc + steps.cum (j + 1))) →
    t < acc + steps.cum (i + 1) →
    (Steps.sampleAt cs steps t acc).1
      = (Sig.sample cs sg (t - (acc + steps.cum i))).1
  | .nil, i, t, acc, sg, dur, hget, _, _ => by
      simp [Steps.get?] at hget
  | .cons s d rest, 0, t, acc, sg, dur, hget, _, hsel => by
      simp only [Steps.get?, Option.some.injEq, Prod.mk.injEq] at hget
      obtain ⟨rfl, rfl⟩ := hget
      rw [Steps.cum_cons_succ, Steps.cum_zero, add_zero] at hsel
      rw [Steps.sampleAt, if_pos hsel, Steps.cum_zero, add_zero]
  | .cons s d rest, i + 1, t, acc, sg, dur, hget, hfirst, hsel => by
      have h0 : ¬ (t < acc + d) := by
        have := hfirst 0 (Nat.succ_pos i)
        rwa [Steps.cum_cons_succ, Steps.cum_zero, add_zero] at this
      rw [Steps.sampleAt, if_neg h0]
      have hget' : rest.get? i = some (sg, dur) := hget
      have hfirst' : ∀ j, j < i → ¬ (t < (acc + d) + rest.cum (j + 1)) := by
        intro j hj
        have := hfirst (j + 1) (Nat.succ_lt_succ hj)
        rwa [Steps.cum_cons_succ, ← add_assoc] at this
      have hsel' : t < (acc + d) + rest.cum (i + 1) := by
        rwa [Steps.cum_cons_succ, ← add_assoc] at hsel
      have := Steps.sampleAt_sel cs rest i t (acc + d) sg dur hget' hfirst' hsel'
      rw [this, Steps.cum_cons_succ, ← add_assoc]

theorem Steps.sampleAt_fallthrough (cs : ℚ → ℚ) :
    (steps : Steps) → (t acc : ℚ) →
    (∀ j, j < steps.count → ¬ (t < acc + steps.cum (j + 1))) →
    (Steps.sampleAt cs steps t acc).1 = 0
  | .nil, t, acc, _ => rfl
  | .cons s d rest, t, acc, h => by
      have h0 : ¬ (t < acc + d) := by
        have := h 0 (by simp [Steps.count, Steps.durs])
        rwa [Steps.cum_cons_succ, Steps.cum_zero, add_zero] at this
      rw [Steps.sampleAt, if_neg h0]
      apply Steps.sampleAt_fallthrough cs rest t (acc + d)
      intro j hj
      have hj' : j + 1 < (Steps.cons s d rest).count := by
        simpa [Steps.count, Steps.durs] using Nat.succ_lt_succ hj
      have := h (j + 1) hj'
      rwa [Steps.cum_cons_succ, ← add_assoc] at this

mutual
theorem Sig.clone_box_after_sample (cs : ℚ → ℚ) :
    (s : Sig) → (t : ℚ) → ((Sig.sample cs s t).2).clone_box = s.clone_box
  | .Const v, t => rfl
  | .Sine freq state, t => by
      simp [Sig.sample, Sig.clone_box, Sig.clone_box_after_sample cs freq t]
  | .Gain signal g, t => by
      simp [Sig.sample, Sig.clone_box, Sig.clone_box_after_sample cs signal t]
  | .Sum a b, t => by
      simp [Sig.sample, Sig.clone_box, Sig.clone_box_after_sample cs a t,
        Sig.clone_box_after_sample cs b t]
  | .Adsr core gate input, t => by
      simp [Sig.sample, Sig.clone_box, Sig.clone_box_after_sample cs gate t,
        Sig.clone_box_after_sample cs input t]
  | .Sample gate samples index, t => by
      rw [Sig.sample]
      split
      · simp [Sig.clone_box, Sig.clone_box_after_sample cs gate t]
      · split
        · simp [Sig.clone_box, Sig.clone_box_after_sample cs gate t]
        · simp [Sig.clone_box, Sig.clone_box_after_sample cs gate t]
  | .Every period duration, t => rfl
  | .StepSignal steps total, t => by
      rw [Sig.sample]
      split
      · rfl
      · simp [Sig.clone_box,
          Steps.clone_box_after_sampleAt cs steps (fmod t total) 0]
theorem Steps.clone_box_after_sampleAt (cs : ℚ → ℚ) :
    (steps : Steps) → (t acc : ℚ) →
      ((Steps.sampleAt cs steps t acc).2).clone_box = steps.clone_box
  | .nil, t, acc => rfl
  | .cons signal duration rest, t, acc => by
      rw [Steps.sampleAt]
      split
      · simp [Steps.clone_box, Sig.clone_box_after_sample cs signal (t - acc)]
      · simp [Steps.clone_box,
          Steps.clone_box_after_sampleAt cs rest t (acc + duration)]
end

theorem adsrIter_succ (c : AdsrCore) (g : Bool) (n : ℕ) :
    adsrIter c g (n + 1) = adsrUpdate (adsrIter c g n) g := rfl

theorem adsrIter_add (c : AdsrCore) (g : Bool) (m n : ℕ) :
    adsrIter c g (m + n) = adsrIter (adsrIter c g m) g n := by
  induction n with
  | zero => rfl
  | succ k ih => rw [← Nat.add_assoc, adsrIter_succ, ih, adsrIter_succ]

theorem adsr_attack_step (v : ℚ) (h : v + 1/441 < 1) :
    adsrUpdate (attackCore v) true = attackCore (v + 1/441) := by
  norm_num [adsrUpdate, attackCore, adsrDen, SAMPLE_RATE]
  intro hc
  linarith

theorem adsr_iter_attack : (k : ℕ) → k + 1 ≤ 440 →
    adsrIter adsrNew true (k + 1) = attackCore (((k : ℚ) + 1) / 441)
  | 0, _ => by
      rw [show (0 : ℕ) + 1 = 1 by norm_num, show (1 : ℕ) = 0 + 1 by norm_num,
        adsrIter_succ]
      norm_num [adsrIter, adsrUpdate, adsrNew, attackCore, adsrDen, SAMPLE_RATE]
  | k + 1, h => by
      have hk : k + 1 ≤ 440 := by omega
      have ih := adsr_iter_attack k hk
      rw [adsrIter_succ, ih, adsr_attack_step]
      · congr 1
        push_cast
        ring
      · have hk2 : ((k : ℚ) + 1) ≤ 439 := by
          have : (k : ℚ) ≤ 438 := by
            exact_mod_cast Nat.le_of_lt_succ (by omega)
          linarith
        rw [div_add_div_same, div_lt_one (by norm_num)]
        linarith

theorem adsr_iter_441 : adsrIter adsrNew true 441 = decayCore 1 := by
  have h := adsr_iter_attack 439 (by norm_num)
  rw [show (441 : ℕ) = 440 + 1 by norm_num, adsrIter_succ,
    show (440 : ℕ) = 439 + 1 by norm_num, h]
  norm_num [adsrUpdate, attackCore, decayCore, adsrDen, SAMPLE_RATE]

theorem adsr_decay_step (v : ℚ) (h : 1/2 < v - 1/26460) :
    adsrUpdate (decayCore v) true = decayCore (v - 1/26460) := by
  norm_num [adsrUpdate, decayCore, adsrDen, SAMPLE_RATE]
  intro hc
  linarith

theorem adsr_iter_decay : (j : ℕ) → j ≤ 13229 →
    adsrIter adsrNew true (441 + j) = decayCore (1 - (j : ℚ) / 26460)
  | 0, _ => by
      rw [Nat.add_zero, adsr_iter_441]
      norm_num
  | j + 1, h => by
      have hj : j ≤ 13229 := by omega
      have ih := adsr_iter_decay j hj
      rw [← Nat.add_assoc, adsrIter_succ, ih, adsr_decay_step]
      · congr 1
        push_cast
        ring
      · have hj2 : (j : ℚ) ≤ 13228 := by
          exact_mod_cast Nat.le_of_lt_succ (by omega)
        have h3 : (j : ℚ) / 26460 ≤ 13228 / 26460 :=
          (div_le_div_iff_of_pos_right (show (0:ℚ) < 26460 by norm_num)).mpr hj2
        linarith

theorem adsr_iter_13671 : adsrIter adsrNew true 13671 = sustainCore := by
  have h := adsr_iter_decay 13229 (by norm_num)
  rw [show (13671 : ℕ) = (441 + 13229) + 1 by norm_num, adsrIter_succ, h]
  norm_num [adsrUpdate, decayCore, sustainCore, adsrDen, SAMPLE_RATE]

theorem adsr_sustain_step : adsrUpdate sustainCore true = sustainCore := by
  norm_num [adsrUpdate, sustainCore]

theorem adsr_iter_sustain (n : ℕ) (h : 13671 ≤ n) :
    adsrIter adsrNew true n = sustainCore := by
  obtain ⟨m, rfl⟩ := Nat.exists_eq_add_of_le h
  rw [adsrIter_add, adsr_iter_13671]
  induction m with
  | zero => rfl
  | succ k ih => rw [adsrIter_succ, ih (by omega), adsr_sustain_step]

theorem sampleN_nil (cs : ℚ → ℚ) (s : Sig) : sampleN cs s [] = s := rfl

theorem sampleN_cons (cs : ℚ → ℚ) (s : Sig) (t : ℚ) (ts : List ℚ) :
    sampleN cs s (t :: ts) = sampleN cs (Sig.sample cs s t).2 ts := rfl

theorem sample_adsr_shape (cs : ℚ → ℚ) (c : AdsrCore) (gate input : Sig) (t : ℚ) :
    (Sig.sample cs (.Adsr c gate input) t).2
      = .Adsr (adsrUpdate c (decide ((Sig.sample cs gate t).1 > 0)))
          (Sig.sample cs gate t).2 (Sig.sample cs input t).2 := rfl

theorem sampleN_adsr_const (cs : ℚ → ℚ) (g : ℚ) (hg : 0 < g) :
    (ts : List ℚ) → (c : AdsrCore) → (input : Sig) →
    sampleN cs (.Adsr c (.Const g) input) ts
      = .Adsr (adsrIter c true ts.length) (.Const g) (sampleN cs input ts)
  | [], c, input => rfl
  | t :: ts, c, input => by
      rw [sampleN_cons, sample_adsr_shape]
      have hgate : Sig.sample cs (.Const g) t = (g, .Const g) := rfl
      rw [hgate]
      have hd : decide ((g, Sig.Const g).1 > 0) = true := decide_eq_true hg
      rw [hd, sampleN_adsr_const cs g hg ts (adsrUpdate c true) (Sig.sample cs input t).2,
        List.length_cons, adsrIter_succ_front]
      rfl

theorem adsrUpdate_peak (c : AdsrCore) (b : Bool) :
    (adsrUpdate c b).peak_level = c.peak_level := by
  obtain ⟨st, pk, atk, dcy, sus, rel, beg, val, gl⟩ := c
  cases gl <;> cases b <;> cases st <;>
    simp only [adsrUpdate] <;> split_ifs <;> rfl

theorem adsrDen_pos (d : ℚ) : 0 < adsrDen d :=
  lt_of_lt_of_le one_pos (le_max_right _ _)

theorem adsrInv_preserved (c : AdsrCore) (b : Bool) (h : AdsrInv c) :
    AdsrInv (adsrUpdate c b) := by
  obtain ⟨st, pk, atk, dcy, sus, rel, beg, val, gl⟩ := c
  obtain ⟨h1, h2, h3, h4, h5⟩ := h
  simp only at h1 h2 h3 h4 h5
  have hpk : (0 : ℚ) ≤ pk := h4.trans h5
  have hsa : 0 ≤ pk / adsrDen atk := div_nonneg hpk (adsrDen_pos atk).le
  have hsd : 0 ≤ (pk - sus) / adsrDen dcy :=
    div_nonneg (by linarith) (adsrDen_pos dcy).le
  have hsb : 0 ≤ beg / adsrDen rel := div_nonneg h3 (adsrDen_pos rel).le
  have hsv : 0 ≤ val / adsrDen rel := div_nonneg h1 (adsrDen_pos rel).le
  cases gl <;> cases b <;> cases st <;>
    simp only [adsrUpdate, AdsrInv] <;> (try split_ifs) <;> (try dsimp only) <;>
    exact ⟨by linarith, by linarith, by linarith, by linarith, by linarith⟩

theorem sampleN_adsr (cs : ℚ → ℚ) :
    (ts : List ℚ) → (c : AdsrCore) → (gate input : Sig) →
    ∃ c' gate' input',
      sampleN cs (.Adsr c gate input) ts = .Adsr c' gate' input' ∧
        (AdsrInv c → AdsrInv c') ∧ c'.peak_level = c.peak_level
  | [], c, gate, input => ⟨c, gate, input, rfl, id, rfl⟩
  | t :: ts, c, gate, input => by
      rw [sampleN_cons, sample_adsr_shape]
      obtain ⟨c', g', i', heq, hinv, hpk⟩ :=
        sampleN_adsr cs ts (adsrUpdate c (decide ((Sig.sample cs gate t).1 > 0)))
          (Sig.sample cs gate t).2 (Sig.sample cs input t).2
      exact ⟨c', g', i', heq,
        fun hc => hinv (adsrInv_preserved _ _ hc),
        by rw [hpk, adsrUpdate_peak]⟩

/-- C3: the envelope ramp divisions in Adsr::sample all use the
denominator max(duration * SAMPLE_RATE, 1), which is at least 1 — so a
zero (or negative) phase duration never yields a zero divisor — and a
StepSignal with total_time = 0 is sampled to silence with its state
untouched (the source's t % 0.0 is NaN and fails every segment
comparison), so neither case propagates a division fault. -/
theorem division_by_zero_guards :
    (∀ d : ℚ, 1 ≤ adsrDen d) ∧
    (∀ (cs : ℚ → ℚ) (steps : Steps) (t : ℚ),
      Sig.sample cs (.StepSignal steps 0) t = (0, .StepSignal steps 0)) := by
  constructor
  · intro d
    exact le_max_right _ _
  · intro cs steps t
    rw [Sig.sample, if_pos rfl]

/-- C8: one call of Sample::sample.  If the gate output is at or below 0
the playback cursor resets to 0 and the output is 0; if the gate is high
and the cursor is inside the recording, the output is the sample under
the cursor and the cursor advances by one; if the gate is high and the
cursor has run past the end, the output is 0 and the cursor stays put —
no branch can index out of range. -/
theorem sample_player_gate (cs : ℚ → ℚ) (gate : Sig) (samples : List ℚ)
    (index : ℕ) (t : ℚ) :
    ((Sig.sample cs gate t).1 ≤ 0 →
      Sig.sample cs (.Sample gate samples index) t
        = (0, .Sample (Sig.sample cs gate t).2 samples 0))
  ∧ (0 < (Sig.sample cs gate t).1 → index < samples.length →
      Sig.sample cs (.Sample gate samples index) t
        = (samples.getD index 0, .Sample (Sig.sample cs gate t).2 samples (index + 1)))
  ∧ (0 < (Sig.sample cs gate t).1 → samples.length ≤ index →
      Sig.sample cs (.Sample gate samples index) t
        = (0, .Sample (Sig.sample cs gate t).2 samples index)) := by
  refine ⟨fun h => ?_, fun h hi => ?_, fun h hi => ?_⟩
  · rw [Sig.sample, if_pos h]
  · rw [Sig.sample, if_neg (not_le.mpr h), if_pos hi]
  · rw [Sig.sample, if_neg (not_le.mpr h), if_neg (not_lt.mpr hi)]

/-- C8 witness: a one-sample recording under a constant-high gate plays
its sample and advances the cursor. -/
theorem sample_player_gate_witness :
    Sig.sample (fun q => q) (.Sample (.Const 1) [3/4] 0) 0
      = (3/4, .Sample (.Const 1) [3/4] 1) := by
  have h := (sample_player_gate (fun q => q) (.Const 1) [3/4] 0 0).2.1
    (by rw [Sig.sample]; norm_num) (by norm_num)
  rw [h]
  rfl

/-- C4: StepSignal::sample reduces the caller's time to fmod t total_time,
selects the first segment whose cumulative-duration bound exceeds the
reduced time, and samples that segment's sub-signal at the reduced time
minus the cumulative duration before the segment; when no cumulative
bound is exceeded it outputs 0 instead of failing.  Instantiated on the
two-segment sequence of the spec, sampling at t = 3/2 yields the second
segment sampled at local time 1/2. -/
theorem stepSignal_local_time :
    (∀ (cs : ℚ → ℚ) (steps : Steps) (total t : ℚ) (i : ℕ) (sg : Sig) (dur : ℚ),
      total ≠ 0 →
      steps.get? i = some (sg, dur) →
      (∀ j, j < i → ¬ (fmod t total < steps.cum (j + 1))) →
      fmod t total < steps.cum (i + 1) →
      (Sig.sample cs (.StepSignal steps total) t).1
        = (Sig.sample cs sg (fmod t total - steps.cum i)).1)
  ∧ (∀ (cs : ℚ → ℚ) (steps : Steps) (total t : ℚ),
      total ≠ 0 →
      (∀ j, j < steps.count → ¬ (fmod t total < steps.cum (j + 1))) →
      (Sig.sample cs (.StepSignal steps total) t).1 = 0)
  ∧ (∀ (cs : ℚ → ℚ) (A B : Sig),
      (Sig.sample cs (StepSignal.new [(A, 1), (B, 2)]) (3/2)).1
        = (Sig.sample cs B (1/2)).1) := by
  refine ⟨?_, ?_, ?_⟩
  · intro cs steps total t i sg dur htot hget hfirst hsel
    rw [Sig.sample, if_neg htot]
    have hsel0 : fmod t total < 0 + steps.cum (i + 1) := by rwa [zero_add]
    have hfirst0 : ∀ j, j < i → ¬ (fmod t total < 0 + steps.cum (j + 1)) := by
      intro j hj
      rw [zero_add]
      exact hfirst j hj
    have h := Steps.sampleAt_sel cs steps i (fmod t total) 0 sg dur hget hfirst0 hsel0
    rw [zero_add] at h
    exact h
  · intro cs steps total t htot hall
    rw [Sig.sample, if_neg htot]
    apply Steps.sampleAt_fallthrough
    intro j hj
    rw [zero_add]
    exact hall j hj
  · intro cs A B
    have htot : (Steps.ofList [(A, (1:ℚ)), (B, 2)]).totalTime = 3 := by
      simp [Steps.ofList, Steps.totalTime]
      norm_num
    have hm : fmod (3/2) 3 = 3/2 := by norm_num [fmod, rtrunc]
    rw [StepSignal.new, Sig.sample, htot, if_neg (by norm_num : (3:ℚ) ≠ 0)]
    show (Steps.sampleAt cs (Steps.ofList [(A, 1), (B, 2)]) (fmod (3/2) 3) 0).1 = _
    rw [hm, show Steps.ofList [(A, (1:ℚ)), (B, 2)]
        = .cons A 1 (.cons B 2 .nil) from rfl]
    rw [Steps.sampleAt, if_neg (by norm_num : ¬ ((3:ℚ)/2 < 0 + 1))]
    show (Steps.sampleAt cs (.cons B 2 .nil) (3/2) (0 + 1)).1 = _
    rw [Steps.sampleAt, if_pos (by norm_num : (3:ℚ)/2 < 0 + 1 + 2)]
    show (Sig.sample cs B (3/2 - (0 + 1))).1 = _
    norm_num

/-- C4 witness: the selection clause applied to the concrete sequence
of two constant segments (5 for one second, then 7 for two seconds)
sampled at t = 3/2 picks the second segment's value. -/
theorem stepSignal_local_time_witness :
    (Sig.sample (fun q => q)
      (.StepSignal (.cons (.Const 5) 1 (.cons (.Const 7) 2 .nil)) 3) (3/2)).1 = 7 := by
  have h := stepSignal_local_time.1 (fun q => q)
    (.cons (.Const 5) 1 (.cons (.Const 7) 2 .nil)) 3 (3/2) 1 (.Const 7) 2
    (by norm_num : (3:ℚ) ≠ 0)
    rfl
    (by
      intro j hj
      interval_cases j
      norm_num [Steps.cum, Steps.durs, fmod, rtrunc])
    (by norm_num [Steps.cum, Steps.durs, fmod, rtrunc])
  rw [h]
  rfl

/-- C9: sampling a fresh duplicate of a step signal at t and at
t + k * total_time (k a natural number, t nonnegative, all segment
durations nonnegative) produces the same output: the output of a fresh
duplicate is a function of fmod t total_time only. -/
theorem stepSignal_sample_loops (cs : ℚ → ℚ) (steps : Steps) (total t : ℚ)
    (k : ℕ) (ht : 0 ≤ t) (hnn : Steps.nonnegDurs steps) :
    (Sig.sample cs ((Sig.StepSignal steps total).clone_box)
        (t + (k : ℚ) * steps.totalTime)).1
      = (Sig.sample cs ((Sig.StepSignal steps total).clone_box) t).1 := by
  have hclone : (Sig.StepSignal steps total).clone_box
      = .StepSignal steps.clone_box steps.totalTime := by
    rw [Sig.clone_box]
    rw [Steps.clone_box_totalTime]
  rw [hclone]
  by_cases h0 : steps.totalTime = 0
  · rw [h0]
    norm_num
  · have hTnn : 0 ≤ steps.totalTime := by
      rw [Steps.totalTime_eq_durs_sum]
      exact List.sum_nonneg hnn
    have hT : 0 < steps.totalTime := lt_of_le_of_ne hTnn (Ne.symm h0)
    rw [Sig.sample, if_neg h0, Sig.sample, if_neg h0]
    rw [fmod_add_nat_mul t steps.totalTime k ht hT]

/-- C9 witness: a one-segment constant sequence sampled at 1/2 and at
1/2 + 2 * total gives the same output. -/
theorem stepSignal_sample_loops_witness :
    (Sig.sample (fun q => q) ((Sig.StepSignal (.cons (.Const 5) 1 .nil) 1).clone_box)
        (1/2 + ((2 : ℕ) : ℚ) * Steps.totalTime (.cons (.Const 5) 1 .nil))).1
      = (Sig.sample (fun q => q)
          ((Sig.StepSignal (.cons (.Const 5) 1 .nil) 1).clone_box) (1/2)).1 :=
  stepSignal_sample_loops (fun q => q) (.cons (.Const 5) 1 .nil) 1 (1/2) 2
    (by norm_num)
    (by
      intro d hd
      simp [Steps.durs] at hd
      simp [hd])

/-- C1 counterexample: clone_box does not snapshot the mutable state.
Play one sample of a two-sample recording (cursor now at 1), then clone:
the clone's next output is the first recorded sample 1/2, while the
original's continuation outputs the second sample 1/4. -/
theorem clone_box_snapshot_cex :
    (Sig.sample (fun q => q)
        ((Sig.sample (fun q => q) (.Sample (.Const 1) [1/2, 1/4] 0) 0).2.clone_box) 1).1
      ≠ (Sig.sample (fun q => q)
          ((Sig.sample (fun q => q) (.Sample (.Const 1) [1/2, 1/4] 0) 0).2) 1).1 := by
  have h1 : (Sig.sample (fun q => q) (.Sample (.Const 1) [1/2, 1/4] 0) 0).2
      = .Sample (.Const 1) [1/2, 1/4] 1 := by
    rw [Sig.sample]
    norm_num [Sig.sample]
  rw [h1]
  have h2 : Sig.clone_box (.Sample (.Const 1) [1/2, 1/4] 1)
      = .Sample (.Const 1) [1/2, 1/4] 0 := rfl
  rw [h2]
  have h3 : (Sig.sample (fun q => q) (.Sample (.Const 1) [1/2, 1/4] 0) 1).1 = 1/2 := by
    rw [Sig.sample]
    norm_num [Sig.sample]
  have h4 : (Sig.sample (fun q => q) (.Sample (.Const 1) [1/2, 1/4] 1) 1).1 = 1/4 := by
    rw [Sig.sample]
    norm_num [Sig.sample]
  rw [h3, h4]
  norm_num

/-- C1 (amended): clone_box copies only the structure of a node and
resets every piece of mutable state to its initial value (Sine phase to
0, Adsr scalar state to the Adsr::new state, playback cursor to 0,
recursively in all sub-signals, with a StepSignal total recomputed from
the cloned durations).  Formally, cloning commutes over sample calls:
cloning after a call gives the same node as cloning before it, so a
duplicate behaves as a freshly built copy of the structure, not as a
continuation of the original's state. -/
theorem clone_box_resets_state (cs : ℚ → ℚ) (s : Sig) (t : ℚ) :
    ((Sig.sample cs s t).2).clone_box = s.clone_box :=
  Sig.clone_box_after_sample cs s t

/-- C5: driving an Adsr::new envelope whose gate signal is a constant
above zero for at least 13671 = (attack + decay) * SAMPLE_RATE sample
calls pins the envelope value to exactly sustain_level, in the Sustain
state, no matter the input signal or the sample times. -/
theorem adsr_reaches_sustain (cs : ℚ → ℚ) (g : ℚ) (input : Sig) (ts : List ℚ)
    (hg : 0 < g) (hlen : 13671 ≤ ts.length) :
    Sig.adsrValue (sampleN cs (.Adsr adsrNew (.Const g) input) ts)
        = adsrNew.sustain_level
      ∧ Sig.adsrStateOf (sampleN cs (.Adsr adsrNew (.Const g) input) ts)
        = some .Sustain := by
  rw [sampleN_adsr_const cs g hg ts adsrNew input,
    adsr_iter_sustain ts.length hlen]
  constructor
  · norm_num [Sig.adsrValue, sustainCore, adsrNew]
  · rfl

/-- C5 witness: 13671 calls at time 0 with gate constantly 1. -/
theorem adsr_reaches_sustain_witness :
    Sig.adsrValue (sampleN (fun q => q)
        (.Adsr adsrNew (.Const 1) (.Const 0)) (List.replicate 13671 0))
      = adsrNew.sustain_level :=
  (adsr_reaches_sustain (fun q => q) 1 (.Const 0) (List.replicate 13671 0)
    (by norm_num) (by rw [List.length_replicate])).1

/-- C6: for an envelope built by Adsr::new, after any sequence of sample
calls with any gate and input signals, the envelope value lies in
[0, peak_level]. -/
theorem adsr_value_in_range (cs : ℚ → ℚ) (gate input : Sig) (ts : List ℚ) :
    0 ≤ Sig.adsrValue (sampleN cs (.Adsr adsrNew gate input) ts)
      ∧ Sig.adsrValue (sampleN cs (.Adsr adsrNew gate input) ts)
        ≤ adsrNew.peak_level := by
  obtain ⟨c', g', i', heq, hinv, hpk⟩ := sampleN_adsr cs ts adsrNew gate input
  have h := hinv (by norm_num [AdsrInv, adsrNew])
  rw [heq]
  simp only [Sig.adsrValue]
  obtain ⟨h1, h2, _, _, _⟩ := h
  refine ⟨h1, ?_⟩
  calc c'.value ≤ c'.peak_level := h2
    _ = adsrNew.peak_level := hpk

/-- C7 counterexample: with a negative-frequency sub-signal the phase
accumulator leaves [0, 2pi).  One call of a fresh Sine driven by the
constant frequency -33075 leaves the phase at -(3/4) * TAU, which is
negative: the remainder operator keeps the sign of its dividend, so the
phase is only wrapped into (-2pi, 2pi), not [0, 2pi). -/
theorem sine_phase_wrap_cex :
    Sig.sineStateOf ((Sig.sample (fun q => q) (.Sine (.Const (-33075)) 0) 0).2) < 0 := by
  have h1 : (Sig.sample (fun q => q) (.Sine (.Const (-33075)) 0) 0).2
      = .Sine (.Const (-33075)) (fmod (0 + TAU * SAMPLE_PERIOD * (-33075)) TAU) := rfl
  rw [h1]
  have h2 : Sig.sineStateOf (.Sine (.Const (-33075))
      (fmod (0 + TAU * SAMPLE_PERIOD * (-33075)) TAU))
      = fmod (0 + TAU * SAMPLE_PERIOD * (-33075)) TAU := rfl
  rw [h2]
  have h3 : (0 : ℚ) + TAU * SAMPLE_PERIOD * (-33075) = -(3/4) * TAU := by
    norm_num [TAU, SAMPLE_PERIOD, SAMPLE_RATE]
  have h4 : (-(3/4) * TAU) / TAU = -(3/4 : ℚ) := by
    rw [mul_div_assoc, div_self (by norm_num [TAU] : TAU ≠ 0)]
    norm_num
  have h5 : ⌈(-(3/4) : ℚ)⌉ = 0 := by
    rw [Int.ceil_eq_iff]
    norm_num
  rw [h3]
  unfold fmod rtrunc
  rw [h4, if_neg (by norm_num), h5]
  norm_num [TAU]

/-- C7 (amended): each Sine::sample call outputs the cosine of the phase
accumulator as it was before the call, then advances the phase by
TAU * SAMPLE_PERIOD * (current frequency sample) and reduces it with the
sign-preserving remainder by TAU.  The phase therefore always stays in
the open interval (-TAU, TAU); it stays in [0, TAU) whenever the phase
was nonnegative and the frequency sample is nonnegative — in particular
for every nonnegative-frequency sub-signal — but not for negative
frequency samples. -/
theorem sine_sample_phase :
    (∀ (cs : ℚ → ℚ) (freq : Sig) (st t : ℚ),
      Sig.sample cs (.Sine freq st) t
        = (cs st, .Sine (Sig.sample cs freq t).2
            (fmod (st + TAU * SAMPLE_PERIOD * (Sig.sample cs freq t).1) TAU)))
  ∧ (∀ x : ℚ, -TAU < fmod x TAU ∧ fmod x TAU < TAU)
  ∧ (∀ st f : ℚ, 0 ≤ st → 0 ≤ f →
      0 ≤ fmod (st + TAU * SAMPLE_PERIOD * f) TAU
        ∧ fmod (st + TAU * SAMPLE_PERIOD * f) TAU < TAU) := by
  have htau : (0 : ℚ) < TAU := by norm_num [TAU]
  refine ⟨fun cs freq st t => rfl,
    fun x => ⟨fmod_gt_neg x TAU htau, fmod_lt_of_pos x TAU htau⟩,
    fun st f hst hf => ?_⟩
  have harg : 0 ≤ st + TAU * SAMPLE_PERIOD * f := by
    have hsp : (0 : ℚ) ≤ SAMPLE_PERIOD := by norm_num [SAMPLE_PERIOD, SAMPLE_RATE]
    have := mul_nonneg (mul_nonneg htau.le hsp) hf
    linarith
  exact ⟨fmod_nonneg _ _ harg htau, fmod_lt _ _ harg htau⟩

/-- C7 witness: from phase 0 with frequency sample 440 the advanced phase
lands in [0, TAU). -/
theorem sine_sample_phase_witness :
    0 ≤ fmod ((0 : ℚ) + TAU * SAMPLE_PERIOD * 440) TAU
      ∧ fmod ((0 : ℚ) + TAU * SAMPLE_PERIOD * 440) TAU < TAU :=
  sine_sample_phase.2.2 0 440 (by norm_num) (by norm_num)

theorem generate_melody_def (notes : List (ℚ × ℚ)) (bpm : ℕ) :
    generate_melody notes bpm
      = (StepSignal.new ((notes.map fun fd => (fd.1, fd.2 * (60 / (bpm : ℚ)))).map
          (fun fd => (play_note fd.1 HARMONICS, fd.2))),
         StepSignal.new ((notes.flatMap fun fd =>
             [((1 : ℚ), (fd.2 - 0.02) * (60 / (bpm : ℚ))),
              ((0 : ℚ), 0.02 * (60 / (bpm : ℚ)))]).map
           (fun gd => ((Sig.Const gd.1 : Sig), gd.2)))) := rfl

theorem stepDurs_new (l : List (Sig × ℚ)) :
    Sig.stepDurs (StepSignal.new l) = l.map Prod.snd := by
  rw [StepSignal.new, Sig.stepDurs, Steps.ofList_durs]

theorem stepSigs_new (l : List (Sig × ℚ)) :
    Sig.stepSigs (StepSignal.new l) = l.map Prod.fst := by
  rw [StepSignal.new, Sig.stepSigs, Steps.ofList_sigs]

theorem stepSegs_new (l : List (Sig × ℚ)) :
    Sig.stepSegs (StepSignal.new l) = l.map (fun sd => (sd.1.constVal, sd.2)) := by
  rw [StepSignal.new, Sig.stepSegs, Steps.ofList_segs]

theorem stepTotal_new (l : List (Sig × ℚ)) :
    Sig.stepTotal (StepSignal.new l) = (l.map Prod.snd).sum := by
  rw [StepSignal.new, Sig.stepTotal, Steps.totalTime_eq_durs_sum, Steps.ofList_durs]

theorem gate_pairs_sum (sp m : ℚ) : (notes : List (ℚ × ℚ)) →
    ((notes.flatMap fun fd =>
        [((1 : ℚ), (fd.2 - sp) * m), ((0 : ℚ), sp * m)]).map Prod.snd).sum
      = (notes.map fun fd => fd.2 * m).sum
  | [] => rfl
  | fd :: rest => by
      rw [List.flatMap_cons, List.map_append, List.sum_append,
        gate_pairs_sum sp m rest, List.map_cons, List.sum_cons]
      simp only [List.map_cons, List.map_nil, List.sum_cons, List.sum_nil]
      ring

/-- C2 counterexample: the claim's frequency-segment duration is wrong on
the code.  For the single note (440, 1.0) at 60 BPM the claim predicts a
frequency segment of duration (1 - 0.02) * 1 = 49/50, but
generate_melody pushes the full duration: the frequency step-sequence
durations are [1], not [49/50]. -/
theorem generate_melody_freq_duration_cex :
    Sig.stepDurs (generate_melody [(440, 1)] 60).1 ≠ [49/50] := by
  have h : Sig.stepDurs (generate_melody [(440, 1)] 60).1 = [1] := by
    rw [generate_melody_def, stepDurs_new, List.map_map, List.map_map]
    simp only [List.map_cons, List.map_nil, Function.comp]
    norm_num
  rw [h]
  intro hh
  have := (List.cons.inj hh).1
  norm_num at this

/-- C2 (amended): for every note list and tempo, generate_melody gives
each note a frequency segment holding its harmonic-stack signal with the
FULL scaled duration dur * (60/bpm) — not (dur - silenceGap) * (60/bpm)
as the claim stated — while the gate sequence is as claimed: per note a
1.0 segment of duration (dur - 0.02) * (60/bpm) followed by a 0.0
segment of duration 0.02 * (60/bpm); for the note list [(440, 1.0)] at
60 BPM the gate step-sequence is [(1.0, 0.98), (0.0, 0.02)]. -/
theorem generate_melody_segments (notes : List (ℚ × ℚ)) (bpm : ℕ) :
    (Sig.stepDurs (generate_melody notes bpm).1
        = notes.map (fun p => p.2 * (60 / (bpm : ℚ)))
      ∧ Sig.stepSigs (generate_melody notes bpm).1
        = notes.map (fun p => play_note p.1 HARMONICS))
    ∧ (Sig.stepSegs (generate_melody notes bpm).2
        = notes.flatMap (fun p =>
            [((1 : ℚ), (p.2 - 0.02) * (60 / (bpm : ℚ))),
             ((0 : ℚ), 0.02 * (60 / (bpm : ℚ)))])
      ∧ Sig.stepSegs (generate_melody [(440, 1)] 60).2
        = [(1, 49/50), (0, 1/50)]) := by
  have hgate : ∀ (ns : List (ℚ × ℚ)) (b : ℕ),
      Sig.stepSegs (generate_melody ns b).2
        = ns.flatMap (fun p =>
            [((1 : ℚ), (p.2 - 0.02) * (60 / (b : ℚ))),
             ((0 : ℚ), 0.02 * (60 / (b : ℚ)))]) := by
    intro ns b
    rw [generate_melody_def, stepSegs_new, List.map_map]
    have : (fun sd => (Sig.constVal sd.1, sd.2)) ∘
        (fun gd : ℚ × ℚ => ((Sig.Const gd.1 : Sig), gd.2))
        = fun gd : ℚ × ℚ => (gd.1, gd.2) := rfl
    rw [this]
    simp
  refine ⟨⟨?_, ?_⟩, hgate notes bpm, ?_⟩
  · rw [generate_melody_def, stepDurs_new, List.map_map, List.map_map]
    rfl
  · rw [generate_melody_def, stepSigs_new, List.map_map, List.map_map]
    rfl
  · rw [hgate [(440, 1)] 60]
    rw [List.flatMap_cons]
    norm_num

/-- C10: the frequency and gate step sequences built by generate_melody
always carry the same total_time, namely the sum over the notes of
dur * (60/bpm): each note contributes dur * (60/bpm) to the frequency
total and (dur - 0.02) * (60/bpm) + 0.02 * (60/bpm) to the gate total,
which agree, so the two sequences loop in sync. -/
theorem generate_melody_totals (notes : List (ℚ × ℚ)) (bpm : ℕ) :
    Sig.stepTotal (generate_melody notes bpm).1
        = Sig.stepTotal (generate_melody notes bpm).2
      ∧ Sig.stepTotal (generate_melody notes bpm).1
        = (notes.map (fun p => p.2 * (60 / (bpm : ℚ)))).sum := by
  have h1 : Sig.stepTotal (generate_melody notes bpm).1
      = (notes.map (fun p => p.2 * (60 / (bpm : ℚ)))).sum := by
    rw [generate_melody_def, stepTotal_new, List.map_map, List.map_map]
    rfl
  have h2 : Sig.stepTotal (generate_melody notes bpm).2
      = (notes.map (fun p => p.2 * (60 / (bpm : ℚ)))).sum := by
    rw [generate_melody_def, stepTotal_new, List.map_map]
    have hc : Prod.snd ∘ (fun gd : ℚ × ℚ => ((Sig.Const gd.1 : Sig), gd.2))
        = Prod.snd := rfl
    rw [hc]
    exact gate_pairs_sum 0.02 (60 / (bpm : ℚ)) notes
  exact ⟨h1.trans h2.symm, h1⟩
